import Mathlib

/-!
# Verification of the clima-rapido-web local history store

Shallow embedding of the browser-side history store and city-name
normalizer implemented in `src/static/js/app.js` (functions `getHistory`,
`setHistory`, `upsertCity`, `deleteCity`, `clearHistoryAll`, `togglePin`,
`renameCity`, `normalizeCity`, and the `cityRegex` pattern), together with
proofs about the store's invariants.

Modelling conventions:
* A history record `{name, pinned, ts}` becomes the structure `Entry` with
  `ts : Int` (milliseconds since the epoch; only compared, never displayed).
* `Date.now()` is passed in explicitly as a `now : Int` parameter.
* JavaScript string operations are modelled on `List Char`:
  `trim` / `\s` use `Char.isWhitespace` and `toLowerCase` / `toUpperCase`
  use `Char.toLower` / `Char.toUpper`, the same basic-latin approximation
  of the Unicode behaviour that Lean's core library uses.
* `Array.prototype.sort(cmp)` is a stable comparator sort; it is modelled
  by `List.insertionSort` (a stable sort) over the embedded comparator.
* Each store operation reads the full persisted list, rewrites it, and
  returns the list it persisted, so operations are modelled as pure
  functions `List Entry → List Entry`; `renameCity` additionally returns
  a `Bool` recording whether it reached its `setHistory` call, because its
  validation-failure paths return without persisting.
-/

/-- A history record `{name, pinned, ts}` from `app.js`. -/
structure Entry where
  name : String
  pinned : Bool
  ts : Int
deriving DecidableEq

/-- `s.toLowerCase()` (basic-latin model, applied characterwise). -/
def jsLower (s : String) : String := String.mk (s.data.map Char.toLower)

/-- The case-insensitive key of an entry: `x.name.toLowerCase()`. -/
def keyOf (e : Entry) : String := jsLower e.name

/-- Numeric coercion of a boolean, as in the comparator `b.pinned - a.pinned`. -/
def pinnedVal (b : Bool) : Int := if b then 1 else 0

/-- The sort comparator `(a,b) => (b.pinned - a.pinned) || (b.ts - a.ts)`:
the first nonzero of the two differences (or zero). -/
def compareEntries (a b : Entry) : Int :=
  if pinnedVal b.pinned - pinnedVal a.pinned ≠ 0 then pinnedVal b.pinned - pinnedVal a.pinned
  else b.ts - a.ts

/-- `a` may precede `b` under the comparator (comparator value ≤ 0):
pinned-descending, then ts-descending. -/
def entryLE (a b : Entry) : Bool := compareEntries a b ≤ 0

/-- The comparator order as a relation, for sorting. -/
def entryRel (a b : Entry) : Prop := entryLE a b = true

instance : DecidableRel entryRel := fun a b => instDecidableEqBool (entryLE a b) true

/-- `arr.sort((a,b) => (b.pinned - a.pinned) || (b.ts - a.ts))`, modelled as a
stable sort by the comparator. -/
def sortEntries (l : List Entry) : List Entry := l.insertionSort entryRel

/-- The ordering invariant: sorted primarily by `pinned` descending,
secondarily by `ts` (lastTouched) descending. -/
def SortedInv (l : List Entry) : Prop := l.Pairwise entryRel

/-- The uniqueness invariant: no two entries have case-insensitively equal
names. -/
def NamesUnique (l : List Entry) : Prop := (l.map keyOf).Nodup

instance (l : List Entry) : Decidable (SortedInv l) := List.instDecidablePairwise l

instance (l : List Entry) : Decidable (NamesUnique l) := List.nodupDecidable _

/-- `arr.findIndex(pred)` specialised to the case-insensitive name lookup
`x => x.name.toLowerCase() === k`, returning `none` for `-1`. -/
def findIdxCI (k : String) : List Entry → Option Nat
  | [] => none
  | e :: rest =>
    if keyOf e = k then some 0
    else (findIdxCI k rest).map (· + 1)

/-- In-place field update `arr[i] = f arr[i]` (a no-op past the end). -/
def modifyAt {α : Type} : List α → Nat → (α → α) → List α
  | [], _, _ => []
  | e :: rest, 0, f => f e :: rest
  | e :: rest, i + 1, f => e :: modifyAt rest i f

/-- `arr.splice(i, 1)`: remove the element at index `i` (no-op past the end). -/
def eraseAt {α : Type} : List α → Nat → List α
  | [], _ => []
  | _ :: rest, 0 => rest
  | e :: rest, i + 1 => e :: eraseAt rest i

/-- `arr[i]`, with a junk default for out-of-range access (every use is
guarded by a successful `findIdxCI`). -/
def getAt (l : List Entry) (i : Nat) : Entry := l.getD i { name := "", pinned := false, ts := 0 }

/-! ## The name normalizer (`normalizeCity`) and `cityRegex`, on `List Char` -/

/-- JavaScript's `\s` / trimmed-whitespace class (basic model). -/
def isWS (c : Char) : Bool := c.isWhitespace

/-- `value.trim()`: drop leading and trailing whitespace. -/
def trimChars (l : List Char) : List Char :=
  ((l.dropWhile isWS).reverse.dropWhile isWS).reverse

/-- `s.trim()` on strings. -/
def jsTrim (s : String) : String := String.mk (trimChars s.data)

/-- Worker for `.replace(/\s+/g, ' ')`: `sawWS` records whether the previous
character was part of a whitespace run already emitted as `' '`. -/
def collapseGo (sawWS : Bool) : List Char → List Char
  | [] => []
  | c :: rest =>
    if isWS c then
      if sawWS then collapseGo true rest
      else ' ' :: collapseGo true rest
    else c :: collapseGo false rest

/-- `.replace(/\s+/g, ' ')`: collapse every whitespace run to one space. -/
def collapseWS (l : List Char) : List Char := collapseGo false l

/-- The 52 characters of the regex class `[A-Za-z]`. -/
def asciiLetters : List Char :=
  ['A', 'B', 'C', 'D', 'E', 'F', 'G', 'H', 'I', 'J', 'K', 'L', 'M',
   'N', 'O', 'P', 'Q', 'R', 'S', 'T', 'U', 'V', 'W', 'X', 'Y', 'Z',
   'a', 'b', 'c', 'd', 'e', 'f', 'g', 'h', 'i', 'j', 'k', 'l', 'm',
   'n', 'o', 'p', 'q', 'r', 's', 't', 'u', 'v', 'w', 'x', 'y', 'z']

/-- `[A-Za-z]`. -/
def isAsciiLetter (c : Char) : Bool := decide (c ∈ asciiLetters)

/-- `.replace(/,\s*([A-Za-z]{2})$/, (_, cc) => ', ' + cc.toUpperCase())`:
if the string ends with a comma, optional whitespace, and two ASCII letters,
rewrite that suffix as `", CC"` with the letters uppercased. -/
def ccReplace (l : List Char) : List Char :=
  match l.reverse with
  | y :: x :: rest =>
    if isAsciiLetter y && isAsciiLetter x then
      match rest.dropWhile isWS with
      | ',' :: preRev => preRev.reverse ++ [',', ' ', x.toUpper, y.toUpper]
      | _ => l
    else l
  | _ => l

/-- Body of `normalizeCity` on character lists: trim, collapse whitespace
runs, then normalize a trailing country code. -/
def normalizeChars (l : List Char) : List Char := ccReplace (collapseWS (trimChars l))

/-- `normalizeCity(value)` from `app.js`. -/
def normalizeCity (s : String) : String := String.mk (normalizeChars s.data)

/-- One character of the permissive city-name class
`[\p{L}\p{M}0-9\s,'\.\-]` (with the letter classes approximated by
basic-latin letters, as elsewhere in the model). -/
def cityClassChar (c : Char) : Bool :=
  c.isAlpha || c.isDigit || isWS c || c = ',' || c = '\'' || c = '.' || c = '-'

/-- `[\p{L}\p{M}0-9\s,'\.\-]{1,80}` applied to a whole segment. -/
def cityBodyOk (l : List Char) : Bool :=
  decide (1 ≤ l.length) && decide (l.length ≤ 80) && l.all cityClassChar

/-- `cityRegex = /^[\p{L}\p{M}0-9\s,'\.\-]{1,80}(,\s?[A-Za-z]{2})?$/u` as a
whole-string test: either the body alone matches, or a body followed by the
optional `,\s?CC` group (of length 3 or 4) does. -/
def cityTest (s : String) : Bool :=
  let l := s.data
  let n := l.length
  cityBodyOk l ||
  (match l.drop (n - 3) with
   | [',', a, b] => cityBodyOk (l.take (n - 3)) && isAsciiLetter a && isAsciiLetter b
   | _ => false) ||
  (match l.drop (n - 4) with
   | [',', w, a, b] => cityBodyOk (l.take (n - 4)) && isWS w && isAsciiLetter a && isAsciiLetter b
   | _ => false)

/-! ## The store operations -/

/-- `upsertCity(name)` from `app.js`: trim the name, look it up
case-insensitively; update the match's casing and timestamp, or insert a
fresh unpinned entry at the head; then sort and keep the first 8. -/
def upsertCity (name : String) (now : Int) (arr : List Entry) : List Entry :=
  let normalized := jsTrim name
  let pre : List Entry :=
    match findIdxCI (jsLower normalized) arr with
    | some i => modifyAt arr i (fun e => { e with name := normalized, ts := now })
    | none => { name := normalized, pinned := false, ts := now } :: arr
  (sortEntries pre).take 8

/-- `deleteCity(name)`: keep the entries whose lowercased name differs. -/
def deleteCity (name : String) (arr : List Entry) : List Entry :=
  arr.filter (fun x => keyOf x != jsLower name)

/-- `clearHistoryAll()`. -/
def clearHistoryAll : List Entry := []

/-- `togglePin(name)`: on a case-insensitive match, flip `pinned`, refresh
`ts`, and re-sort; otherwise return the list untouched (and unpersisted). -/
def togglePin (name : String) (now : Int) (arr : List Entry) : List Entry :=
  match findIdxCI (jsLower name) arr with
  | none => arr
  | some i => sortEntries (modifyAt arr i (fun e => { e with pinned := !e.pinned, ts := now }))

/-- `renameCity(oldName, normalizeFn, regex)` from `app.js`.
`promptRes` models the `prompt()` result (`none` = cancelled), `normalizeFn`
and `test` model the injected normalizer and `regex.test`. The returned
`Bool` is `true` exactly on the paths that reach `setHistory`. -/
def renameCity (oldName : String) (promptRes : Option String)
    (normalizeFn : String → String) (test : String → Bool)
    (now : Int) (current : List Entry) : List Entry × Bool :=
  match findIdxCI (jsLower oldName) current with
  | none => (current, false)
  | some i =>
    match promptRes with
    | none => (current, false)
    | some rawNew =>
      let nn := normalizeFn rawNew
      if nn = "" then (current, false)
      else if 80 < nn.length then (current, false)
      else if test nn = false then (current, false)
      else
        let srcPinned := (getAt current i).pinned
        let next : List Entry :=
          match findIdxCI (jsLower nn) current with
          | some j =>
            if j = i then modifyAt current i (fun e => { e with name := nn, ts := now })
            else eraseAt (modifyAt current j
              (fun e => { e with pinned := e.pinned || srcPinned, ts := now })) i
          | none => modifyAt current i (fun e => { e with name := nn, ts := now })
        (sortEntries next, true)

/-- One mutating store operation, with the nondeterministic inputs
(`Date.now()`, the `prompt()` answer) made explicit. `rename` is applied
the way `app.js` calls it: with `normalizeCity` and `cityRegex`. -/
inductive StoreOp where
  | upsert (name : String) (now : Int)
  | delete (name : String)
  | toggle (name : String) (now : Int)
  | rename (oldName : String) (promptRes : Option String) (now : Int)
  | clear

/-- Apply one store operation to the persisted list. -/
def applyOp (op : StoreOp) (arr : List Entry) : List Entry :=
  match op with
  | .upsert n t => upsertCity n t arr
  | .delete n => deleteCity n arr
  | .toggle n t => togglePin n t arr
  | .rename o pr t => (renameCity o pr normalizeCity cityTest t arr).1
  | .clear => clearHistoryAll

/-- Apply a sequence of store operations, oldest first. -/
def applyOps (ops : List StoreOp) (arr : List Entry) : List Entry :=
  ops.foldl (fun a op => applyOp op a) arr

/-- A sequence of `upsertCity` calls, each with its `Date.now()` value. -/
def upsertSeq (ops : List (String × Int)) (arr : List Entry) : List Entry :=
  ops.foldl (fun a p => upsertCity p.1 p.2 a) arr

/-- The case-insensitive lookup key an `upsertCity name` call uses. -/
def upsertKey (name : String) : String := jsLower (jsTrim name)

/-! ## Persisted-data decoding (`getHistory`) -/

/-- A parsed JSON value, as far as `getHistory` inspects it. Numbers are
modelled as integers (the values at stake are millisecond timestamps). -/
inductive JVal where
  | jnull
  | jbool (b : Bool)
  | jnum (n : Int)
  | jstr (s : String)
  | jarr (xs : List JVal)
  | jobj (fields : List (String × JVal))

/-- `Array.isArray`. -/
def isArr : JVal → Bool
  | .jarr _ => true
  | _ => false

/-- `Array.isArray(raw) ? raw : []`. -/
def jArrD : JVal → List JVal
  | .jarr xs => xs
  | _ => []

/-- `typeof v === 'string'`. -/
def isJStr : JVal → Bool
  | .jstr _ => true
  | _ => false

/-- The string payload of a legacy element. (`app.js` copies the raw value
into `name`; the model coerces non-strings at this type boundary to `""`,
which only matters outside the legacy all-strings format.) -/
def strOf : JVal → String
  | .jstr s => s
  | _ => ""

/-- JavaScript truthiness of a parsed value (`Boolean(v)`, `v || default`). -/
def jTruthy : JVal → Bool
  | .jnull => false
  | .jbool b => b
  | .jnum n => n != 0
  | .jstr s => s != ""
  | .jarr _ => true
  | .jobj _ => true

/-- `o?.k`: field access with optional chaining; anything without fields
gives `undefined`, modelled as `jnull`. -/
def jGet (v : JVal) (k : String) : JVal :=
  match v with
  | .jobj fields =>
    match fields.find? (fun p => p.1 = k) with
    | some p => p.2
    | none => .jnull
  | _ => .jnull

/-- `String(v)` for the values reachable in `String(o?.name || '')`. -/
def jsString : JVal → String
  | .jnull => "null"
  | .jbool b => if b then "true" else "false"
  | .jnum n => toString n
  | .jstr s => s
  | .jarr _ => ""
  | .jobj _ => "[object Object]"

/-- `String(v || '')`. -/
def jsStringOrEmpty (v : JVal) : String := if jTruthy v then jsString v else ""

/-- The legacy upgrade `arr.map((name, i) => ({name, pinned:false, ts: now - i}))`,
with `i` the running index. -/
def legacyUpgrade (now : Int) : List JVal → Nat → List Entry
  | [], _ => []
  | v :: rest, i => { name := strOf v, pinned := false, ts := now - i } :: legacyUpgrade now rest (i + 1)

/-- The record branch
`arr.map(o => ({name: String(o?.name || '').trim(), pinned: Boolean(o?.pinned), ts: Number.isFinite(o?.ts) ? o.ts : Date.now()})).filter(o => o.name)`. -/
def decodeRecord (now : Int) (o : JVal) : Entry :=
  { name := jsTrim (jsStringOrEmpty (jGet o "name"))
    pinned := jTruthy (jGet o "pinned")
    ts := match jGet o "ts" with
          | .jnum n => n
          | _ => now }

/-- `getHistory()` from `app.js`, as a function of the parsed persisted blob.
`Except.error ()` models a `JSON.parse` exception caught by the
`try`/`catch`; a missing key becomes `.ok (.jarr [])` via `|| '[]'`. -/
def getHistory (raw : Except Unit JVal) (now : Int) : List Entry :=
  match raw with
  | .error _ => []
  | .ok v =>
    let arr := jArrD v
    if !arr.isEmpty && isJStr (arr.headD .jnull) then
      legacyUpgrade now arr 0
    else
      (arr.map (decodeRecord now)).filter (fun e => e.name != "")

/-- The persisted blob as `getHistory` sees it. -/
structure Storage where
  val : Except Unit JVal

/-- `getHistory` as a state transition on storage: its body contains no
`setItem`, so the storage component is returned untouched. -/
def getHistoryS (st : Storage) (now : Int) : Storage × List Entry :=
  (st, getHistory st.val now)

/-! ## Comparator facts and sorting lemmas -/

theorem entryLE_total (a b : Entry) : entryLE a b || entryLE b a := by
  cases ha : a.pinned <;> cases hb : b.pinned <;>
    simp [entryLE, compareEntries, pinnedVal, ha, hb] <;> omega

theorem entryLE_trans (a b c : Entry) :
    entryLE a b = true → entryLE b c = true → entryLE a c = true := by
  cases ha : a.pinned <;> cases hb : b.pinned <;> cases hc : c.pinned <;>
    simp [entryLE, compareEntries, pinnedVal, ha, hb, hc] <;> omega

instance : IsTotal Entry entryRel :=
  ⟨fun a b => by
    have h := entryLE_total a b
    cases hab : entryLE a b with
    | true => exact Or.inl hab
    | false => rw [hab] at h; simp at h; exact Or.inr h⟩

instance : IsTrans Entry entryRel :=
  ⟨fun _ _ _ hab hbc => entryLE_trans _ _ _ hab hbc⟩

theorem sorted_sortEntries (l : List Entry) : SortedInv (sortEntries l) :=
  List.sorted_insertionSort entryRel l

theorem perm_sortEntries (l : List Entry) : (sortEntries l).Perm l :=
  List.perm_insertionSort entryRel l

theorem sortedInv_take (n : Nat) (l : List Entry) (h : SortedInv l) :
    SortedInv (l.take n) :=
  List.Pairwise.sublist (List.take_sublist n l) h

theorem sortedInv_upsert (name : String) (now : Int) (arr : List Entry) :
    SortedInv (upsertCity name now arr) :=
  sortedInv_take 8 _ (sorted_sortEntries _)

theorem sortedInv_delete (name : String) (arr : List Entry) (h : SortedInv arr) :
    SortedInv (deleteCity name arr) :=
  List.Pairwise.sublist (List.filter_sublist arr) h

theorem sortedInv_toggle (name : String) (now : Int) (arr : List Entry) (h : SortedInv arr) :
    SortedInv (togglePin name now arr) := by
  unfold togglePin
  cases findIdxCI (jsLower name) arr with
  | none => exact h
  | some i => exact sorted_sortEntries _

theorem sortedInv_rename (o : String) (pr : Option String) (nf : String → String)
    (test : String → Bool) (now : Int) (arr : List Entry) (h : SortedInv arr) :
    SortedInv (renameCity o pr nf test now arr).1 := by
  unfold renameCity
  split
  · exact h
  · split
    · exact h
    · dsimp only
      split
      · exact h
      · split
        · exact h
        · split
          · exact h
          · exact sorted_sortEntries _

theorem sortedInv_applyOp (op : StoreOp) (arr : List Entry) (h : SortedInv arr) :
    SortedInv (applyOp op arr) := by
  cases op with
  | upsert n t => exact sortedInv_upsert n t arr
  | delete n => exact sortedInv_delete n arr h
  | toggle n t => exact sortedInv_toggle n t arr h
  | rename o pr t => exact sortedInv_rename o pr normalizeCity cityTest t arr h
  | clear => exact List.Pairwise.nil

/-- **C1**: starting from any history list satisfying the ordering invariant,
every single mutating store operation (`upsertCity`, `deleteCity`,
`togglePin`, `renameCity`, `clearHistoryAll`) yields a list sorted primarily
by `pinned` descending and secondarily by `lastTouched` (`ts`) descending —
in particular `deleteCity`, which filters the sorted list without
re-sorting. -/
theorem order_invariant_after_every_single_op (op : StoreOp) (arr : List Entry)
    (h : SortedInv arr) : SortedInv (applyOp op arr) :=
  sortedInv_applyOp op arr h

theorem order_invariant_after_every_single_op_witness :
    SortedInv [⟨"Tokyo", true, 50⟩, ⟨"Paris", false, 100⟩] ∧
      SortedInv (applyOp (StoreOp.delete "PARIS") [⟨"Tokyo", true, 50⟩, ⟨"Paris", false, 100⟩]) :=
  ⟨by decide, order_invariant_after_every_single_op _ _ (by decide)⟩

/-! ## Lookup, update and erase helper lemmas -/

theorem findIdxCI_eq_none_iff (k : String) (l : List Entry) :
    findIdxCI k l = none ↔ ∀ e ∈ l, keyOf e ≠ k := by
  induction l with
  | nil => simp [findIdxCI]
  | cons e rest ih =>
    by_cases hk : keyOf e = k
    · simp [findIdxCI, hk]
    · simp [findIdxCI, hk, ih]

theorem findIdxCI_some_getElem (k : String) :
    ∀ (l : List Entry) (i : Nat), findIdxCI k l = some i →
      ∃ e, l[i]? = some e ∧ keyOf e = k := by
  intro l
  induction l with
  | nil => intro i h; simp [findIdxCI] at h
  | cons e rest ih =>
    intro i h
    by_cases hk : keyOf e = k
    · simp [findIdxCI, hk] at h
      subst h
      exact ⟨e, by simp, hk⟩
    · simp [findIdxCI, hk, Option.map_eq_some'] at h
      obtain ⟨j, hj, hij⟩ := h
      obtain ⟨e', he', hke'⟩ := ih j hj
      exact ⟨e', by simpa [← hij] using he', hke'⟩

theorem getAt_eq_of_getElem (l : List Entry) (i : Nat) (e : Entry)
    (h : l[i]? = some e) : getAt l i = e := by
  simp [getAt, List.getD_eq_getElem?_getD, h]

theorem map_modifyAt_const {α β : Type} (g : α → β) (f : α → α) (k : β)
    (hf : ∀ e, g (f e) = k) :
    ∀ (l : List α) (i : Nat), (modifyAt l i f).map g = (l.map g).set i k := by
  intro l
  induction l with
  | nil => intro i; simp [modifyAt]
  | cons e rest ih =>
    intro i
    cases i with
    | zero => simp [modifyAt, hf]
    | succ j => simp [modifyAt, ih j]

theorem map_modifyAt_pres {α β : Type} (g : α → β) (f : α → α)
    (hf : ∀ e, g (f e) = g e) :
    ∀ (l : List α) (i : Nat), (modifyAt l i f).map g = l.map g := by
  intro l
  induction l with
  | nil => intro i; simp [modifyAt]
  | cons e rest ih =>
    intro i
    cases i with
    | zero => simp [modifyAt, hf]
    | succ j => simp [modifyAt, ih j]

theorem set_getElem_self {α : Type} :
    ∀ (l : List α) (i : Nat) (a : α), l[i]? = some a → l.set i a = l := by
  intro l
  induction l with
  | nil => intro i a h; simp at h
  | cons e rest ih =>
    intro i a h
    cases i with
    | zero => simp at h; simp [h]
    | succ j => simp at h; simp [ih j a h]

theorem eraseAt_sublist {α : Type} :
    ∀ (l : List α) (i : Nat), (eraseAt l i).Sublist l := by
  intro l
  induction l with
  | nil => intro i; simp [eraseAt]
  | cons e rest ih =>
    intro i
    cases i with
    | zero => exact List.sublist_cons_self e rest
    | succ j => exact List.Sublist.cons₂ e (ih j)

theorem modifyAt_getElem_self {α : Type} (f : α → α) :
    ∀ (l : List α) (i : Nat) (e : α), l[i]? = some e → (modifyAt l i f)[i]? = some (f e) := by
  intro l
  induction l with
  | nil => intro i e h; simp at h
  | cons x rest ih =>
    intro i e h
    cases i with
    | zero => simp at h; simp [modifyAt, h]
    | succ j => simp at h; simpa [modifyAt] using ih j e h

theorem mem_eraseAt_of_getElem_ne {α : Type} :
    ∀ (l : List α) (i j : Nat) (a : α), j ≠ i → l[j]? = some a → a ∈ eraseAt l i := by
  intro l
  induction l with
  | nil => intro i j a _ h; simp at h
  | cons x rest ih =>
    intro i j a hji h
    cases i with
    | zero =>
      cases j with
      | zero => exact absurd rfl hji
      | succ j' =>
        simp at h
        exact List.getElem?_mem h
    | succ i' =>
      cases j with
      | zero =>
        simp at h
        simp [eraseAt, h]
      | succ j' =>
        simp at h
        have := ih i' j' a (fun hc => hji (by omega)) h
        simp [eraseAt, this]

/-! ## Preservation of the uniqueness invariant -/

theorem nodup_set_of_not_mem {α : Type} :
    ∀ (l : List α) (i : Nat) (b : α), l.Nodup → b ∉ l → (l.set i b).Nodup := by
  intro l
  induction l with
  | nil => intro i b _ _; simp
  | cons x rest ih =>
    intro i b hnd hb
    rcases List.nodup_cons.mp hnd with ⟨hx, hrest⟩
    cases i with
    | zero =>
      simp only [List.set_cons_zero]
      refine List.nodup_cons.mpr ⟨?_, hrest⟩
      exact fun hbr => hb (List.mem_cons_of_mem x hbr)
    | succ j =>
      simp only [List.set_cons_succ]
      refine List.nodup_cons.mpr
        ⟨?_, ih j b hrest (fun hbr => hb (List.mem_cons_of_mem x hbr))⟩
      intro hmem
      rcases List.mem_or_eq_of_mem_set hmem with hm | he
      · exact hx hm
      · exact hb (by rw [← he]; exact List.mem_cons_self x rest)

theorem namesUnique_sort (pre : List Entry) (h : NamesUnique pre) :
    NamesUnique (sortEntries pre) :=
  (((perm_sortEntries pre).map keyOf).nodup_iff).mpr h

theorem namesUnique_sortTake (n : Nat) (pre : List Entry) (h : NamesUnique pre) :
    NamesUnique ((sortEntries pre).take n) := by
  have h1 : ((sortEntries pre).map keyOf).Nodup := namesUnique_sort pre h
  have h2 : (((sortEntries pre).take n).map keyOf).Sublist ((sortEntries pre).map keyOf) := by
    rw [List.map_take]
    exact List.take_sublist n _
  exact List.Nodup.sublist h2 h1

theorem namesUnique_upsert (name : String) (now : Int) (arr : List Entry)
    (h : NamesUnique arr) : NamesUnique (upsertCity name now arr) := by
  unfold upsertCity
  dsimp only
  apply namesUnique_sortTake
  split
  next i hfi =>
    obtain ⟨e, he, hke⟩ := findIdxCI_some_getElem _ arr i hfi
    unfold NamesUnique
    rw [map_modifyAt_const keyOf
      (fun e => { e with name := jsTrim name, ts := now })
      (jsLower (jsTrim name)) (fun e' => rfl) arr i]
    have hkey : (arr.map keyOf)[i]? = some (jsLower (jsTrim name)) := by
      rw [List.getElem?_map, he]
      simp [hke]
    rw [set_getElem_self _ i _ hkey]
    exact h
  next hfi =>
    unfold NamesUnique
    simp only [List.map_cons]
    refine List.nodup_cons.mpr ⟨?_, h⟩
    rw [findIdxCI_eq_none_iff] at hfi
    intro hmem
    obtain ⟨e, he, hke⟩ := List.mem_map.mp hmem
    exact hfi e he hke

theorem namesUnique_delete (name : String) (arr : List Entry) (h : NamesUnique arr) :
    NamesUnique (deleteCity name arr) :=
  List.Nodup.sublist (List.Sublist.map keyOf (List.filter_sublist arr)) h

theorem namesUnique_toggle (name : String) (now : Int) (arr : List Entry)
    (h : NamesUnique arr) : NamesUnique (togglePin name now arr) := by
  unfold togglePin
  split
  · exact h
  next i hfi =>
    apply namesUnique_sort
    unfold NamesUnique
    rw [map_modifyAt_pres keyOf
      (fun e => { e with pinned := !e.pinned, ts := now }) (fun e => rfl) arr i]
    exact h

theorem namesUnique_rename (o : String) (pr : Option String) (nf : String → String)
    (test : String → Bool) (now : Int) (arr : List Entry) (h : NamesUnique arr) :
    NamesUnique (renameCity o pr nf test now arr).1 := by
  unfold renameCity
  split
  · exact h
  next i hfi =>
    split
    · exact h
    next raw =>
      dsimp only
      split
      · exact h
      split
      · exact h
      split
      · exact h
      apply namesUnique_sort
      split
      next j hfj =>
        split
        next hji =>
          subst hji
          unfold NamesUnique
          rw [map_modifyAt_const keyOf
            (fun e => { e with name := nf raw, ts := now })
            (jsLower (nf raw)) (fun e' => rfl) arr j]
          obtain ⟨e, he, hke⟩ := findIdxCI_some_getElem _ arr j hfj
          have hkey : (arr.map keyOf)[j]? = some (jsLower (nf raw)) := by
            rw [List.getElem?_map, he]
            simp [hke]
          rw [set_getElem_self _ j _ hkey]
          exact h
        next hji =>
          have hkeys :
              (modifyAt arr j (fun e =>
                { e with pinned := e.pinned || (getAt arr i).pinned, ts := now })).map keyOf
              = arr.map keyOf :=
            map_modifyAt_pres keyOf
              (fun e => { e with pinned := e.pinned || (getAt arr i).pinned, ts := now })
              (fun e => rfl) arr j
          unfold NamesUnique
          refine List.Nodup.sublist (List.Sublist.map keyOf (eraseAt_sublist _ i)) ?_
          rw [hkeys]
          exact h
      next hfj =>
        unfold NamesUnique
        rw [map_modifyAt_const keyOf
          (fun e => { e with name := nf raw, ts := now })
          (jsLower (nf raw)) (fun e' => rfl) arr i]
        apply nodup_set_of_not_mem _ i _ h
        rw [findIdxCI_eq_none_iff] at hfj
        intro hmem
        obtain ⟨e, he, hke⟩ := List.mem_map.mp hmem
        exact hfj e he hke

theorem namesUnique_applyOp (op : StoreOp) (arr : List Entry) (h : NamesUnique arr) :
    NamesUnique (applyOp op arr) := by
  cases op with
  | upsert n t => exact namesUnique_upsert n t arr h
  | delete n => exact namesUnique_delete n arr h
  | toggle n t => exact namesUnique_toggle n t arr h
  | rename o pr t => exact namesUnique_rename o pr normalizeCity cityTest t arr h
  | clear => exact List.Pairwise.nil

/-- **C2**: starting from any history list in which no two entries have
case-insensitively equal names, any sequence of store operations
(`upsertCity`, `deleteCity`, `togglePin`, `renameCity`, `clearHistoryAll`)
leaves a list in which no two entries have case-insensitively equal
names. -/
theorem case_insensitive_uniqueness_preserved (ops : List StoreOp) (arr : List Entry)
    (h : NamesUnique arr) : NamesUnique (applyOps ops arr) := by
  induction ops generalizing arr with
  | nil => exact h
  | cons op rest ih => exact ih (applyOp op arr) (namesUnique_applyOp op arr h)

theorem case_insensitive_uniqueness_preserved_witness :
    NamesUnique [⟨"Tokyo", true, 50⟩] ∧
      NamesUnique (applyOps
        [StoreOp.upsert "Paris" 60, StoreOp.rename "tokyo" (some "PARIS") 70]
        [⟨"Tokyo", true, 50⟩]) :=
  ⟨by decide, case_insensitive_uniqueness_preserved _ _ (by decide)⟩

/-! ## Not-found no-ops and rename validation -/

/-- **C8**: when no entry matches the given name case-insensitively,
`deleteCity`, `togglePin` and `renameCity` are total and return the list
unchanged — not-found is a silent no-op. -/
theorem not_found_ops_are_silent_noops (name : String) (now : Int) (pr : Option String)
    (test : String → Bool) (arr : List Entry)
    (h : ∀ e ∈ arr, keyOf e ≠ jsLower name) :
    deleteCity name arr = arr ∧ togglePin name now arr = arr ∧
      renameCity name pr normalizeCity test now arr = (arr, false) := by
  have hfi : findIdxCI (jsLower name) arr = none := (findIdxCI_eq_none_iff _ _).mpr h
  refine ⟨?_, ?_, ?_⟩
  · unfold deleteCity
    rw [List.filter_eq_self]
    intro e he
    simpa [bne_iff_ne] using h e he
  · unfold togglePin
    rw [hfi]
  · unfold renameCity
    rw [hfi]

theorem not_found_ops_are_silent_noops_witness :
    (∀ e ∈ [(⟨"Tokyo", false, 1⟩ : Entry)], keyOf e ≠ jsLower "Nonexistent") ∧
      (deleteCity "Nonexistent" [(⟨"Tokyo", false, 1⟩ : Entry)] = [⟨"Tokyo", false, 1⟩] ∧
        togglePin "Nonexistent" 9 [(⟨"Tokyo", false, 1⟩ : Entry)] = [⟨"Tokyo", false, 1⟩] ∧
        renameCity "Nonexistent" (some "Paris") normalizeCity cityTest 9
          [(⟨"Tokyo", false, 1⟩ : Entry)] = ([⟨"Tokyo", false, 1⟩], false)) :=
  ⟨by decide, not_found_ops_are_silent_noops "Nonexistent" 9 (some "Paris") cityTest _ (by decide)⟩

/-- **C5**: if the normalized new name supplied to `renameCity` is empty,
longer than 80 characters, or rejected by the city-name test, the rename is
aborted: the list is returned unchanged and `setHistory` is never reached
(the persisted-write flag is `false`). -/
theorem rename_validation_failure_is_noop (arr : List Entry) (oldName raw : String)
    (test : String → Bool) (now : Int)
    (h : normalizeCity raw = "" ∨ 80 < (normalizeCity raw).length ∨
      test (normalizeCity raw) = false) :
    renameCity oldName (some raw) normalizeCity test now arr = (arr, false) := by
  unfold renameCity
  cases hfi : findIdxCI (jsLower oldName) arr with
  | none => rfl
  | some i =>
    dsimp only
    split
    · rfl
    next hne =>
      split
      · rfl
      next hlen =>
        split
        · rfl
        next htest =>
          exfalso
          rcases h with h1 | h2 | h3
          · exact hne h1
          · exact hlen h2
          · exact htest h3

theorem rename_validation_failure_is_noop_witness :
    (normalizeCity "   " = "" ∨ 80 < (normalizeCity "   ").length ∨
        cityTest (normalizeCity "   ") = false) ∧
      renameCity "tokyo" (some "   ") normalizeCity cityTest 9
        [(⟨"Tokyo", true, 1⟩ : Entry)] = ([⟨"Tokyo", true, 1⟩], false) :=
  ⟨Or.inl (by decide),
    rename_validation_failure_is_noop [⟨"Tokyo", true, 1⟩] "tokyo" "   " cityTest 9
      (Or.inl (by decide))⟩

/-! ## Capacity eviction on a fully pinned list -/

/-- **C10**: on a stored list of 8 entries that are all pinned, upserting a
name with no case-insensitive match persists a list whose entries all come
from the old list — the freshly inserted unpinned entry is evicted by the
pinned-first truncation, so the result does not contain the upserted
name. -/
theorem upsert_on_full_pinned_list_drops_new_entry (name : String) (now : Int)
    (arr : List Entry) (hlen : arr.length = 8) (hpin : ∀ e ∈ arr, e.pinned = true)
    (hno : ∀ e ∈ arr, keyOf e ≠ upsertKey name) :
    (∀ e ∈ upsertCity name now arr, e ∈ arr) ∧
      ∀ e ∈ upsertCity name now arr, keyOf e ≠ upsertKey name := by
  have hfi : findIdxCI (jsLower (jsTrim name)) arr = none :=
    (findIdxCI_eq_none_iff _ _).mpr (fun e he => hno e he)
  set newE : Entry := { name := jsTrim name, pinned := false, ts := now } with hnewE
  have hpre : upsertCity name now arr = (sortEntries (newE :: arr)).take 8 := by
    unfold upsertCity
    dsimp only
    rw [hfi]
  set s := sortEntries (newE :: arr) with hs
  have hsPerm : s.Perm (newE :: arr) := perm_sortEntries _
  have hsLen : s.length = 9 := by rw [hsPerm.length_eq]; simp [hlen]
  have hSorted : s.Pairwise entryRel := sorted_sortEntries _
  have hNewNotMem : newE ∉ arr := fun hmem => hno newE hmem rfl
  have hcount : s.count newE = 1 := by
    rw [hsPerm.count_eq]
    rw [List.count_cons_self, List.count_eq_zero.mpr hNewNotMem]
  have hNewNotInTake : newE ∉ s.take 8 := by
    intro hmem
    have hdropLen : (s.drop 8).length = 1 := by simp [hsLen]
    obtain ⟨y, hy⟩ := List.length_eq_one.mp hdropLen
    have hpw : List.Pairwise entryRel (s.take 8 ++ s.drop 8) := by
      rw [List.take_append_drop]
      exact hSorted
    have hrel : ∀ a ∈ s.take 8, ∀ b ∈ s.drop 8, entryRel a b :=
      (List.pairwise_append.mp hpw).2.2
    have hyDrop : y ∈ s.drop 8 := by rw [hy]; exact List.mem_cons_self y []
    have hyS : y ∈ s := List.mem_of_mem_drop hyDrop
    rcases List.mem_cons.mp (hsPerm.mem_iff.mp hyS) with hyNew | hyArr
    · have h2 : 2 ≤ s.count newE := by
        have hsplit : s.count newE = (s.take 8).count newE + (s.drop 8).count newE := by
          rw [← List.count_append, List.take_append_drop]
        have h1 : 1 ≤ (s.take 8).count newE := List.count_pos_iff.mpr hmem
        have h1' : 1 ≤ (s.drop 8).count newE := by
          rw [hy, hyNew]
          simp
        omega
      omega
    · have hle : entryRel newE y := hrel newE hmem y hyDrop
      have : entryLE newE y = false := by
        simp [entryLE, compareEntries, pinnedVal, hnewE, hpin y hyArr]
      rw [entryRel, this] at hle
      exact Bool.false_ne_true hle
  constructor
  · intro e he
    rw [hpre] at he
    have heS : e ∈ s := List.mem_of_mem_take he
    rcases List.mem_cons.mp (hsPerm.mem_iff.mp heS) with heNew | heArr
    · rw [heNew] at he
      exact absurd he hNewNotInTake
    · exact heArr
  · intro e he hkey
    rw [hpre] at he
    have heS : e ∈ s := List.mem_of_mem_take he
    rcases List.mem_cons.mp (hsPerm.mem_iff.mp heS) with heNew | heArr
    · rw [heNew] at he
      exact absurd he hNewNotInTake
    · exact hno e heArr hkey

theorem upsert_on_full_pinned_list_drops_new_entry_witness :
    ([(⟨"a1", true, 1⟩ : Entry), ⟨"a2", true, 2⟩, ⟨"a3", true, 3⟩, ⟨"a4", true, 4⟩,
        ⟨"a5", true, 5⟩, ⟨"a6", true, 6⟩, ⟨"a7", true, 7⟩, ⟨"a8", true, 8⟩].length = 8) ∧
      ∀ e ∈ upsertCity "Lima" 99
        [(⟨"a1", true, 1⟩ : Entry), ⟨"a2", true, 2⟩, ⟨"a3", true, 3⟩, ⟨"a4", true, 4⟩,
          ⟨"a5", true, 5⟩, ⟨"a6", true, 6⟩, ⟨"a7", true, 7⟩, ⟨"a8", true, 8⟩],
        keyOf e ≠ upsertKey "Lima" :=
  ⟨by decide,
    (upsert_on_full_pinned_list_drops_new_entry "Lima" 99 _
      (by decide) (by decide) (by decide)).2⟩

/-! ## Rename-merge semantics -/

theorem map_eraseAt {α β : Type} (g : α → β) :
    ∀ (l : List α) (i : Nat), (eraseAt l i).map g = eraseAt (l.map g) i := by
  intro l
  induction l with
  | nil => intro i; simp [eraseAt]
  | cons x rest ih =>
    intro i
    cases i with
    | zero => simp [eraseAt]
    | succ j => simp [eraseAt, ih j]

theorem not_mem_eraseAt_self {α : Type} :
    ∀ (l : List α) (i : Nat) (a : α), l.Nodup → l[i]? = some a → a ∉ eraseAt l i := by
  intro l
  induction l with
  | nil => intro i a _ h; simp at h
  | cons x rest ih =>
    intro i a hnd h
    rcases List.nodup_cons.mp hnd with ⟨hx, hrest⟩
    cases i with
    | zero =>
      simp at h
      subst h
      simpa [eraseAt] using hx
    | succ j =>
      simp at h
      intro hmem
      rcases List.mem_cons.mp hmem with he | hm
      · rw [he] at h
        exact hx (List.getElem?_mem h)
      · exact ih j a hrest h hm

theorem eq_of_mem_key_nodup {α β : Type} (g : α → β) :
    ∀ (l : List α) (j : Nat) (m : α), (l.map g).Nodup → l[j]? = some m →
      ∀ e ∈ l, g e = g m → e = m := by
  intro l
  induction l with
  | nil => intro j m _ h; simp at h
  | cons x rest ih =>
    intro j m hnd h e he hge
    simp only [List.map_cons] at hnd
    rcases List.nodup_cons.mp hnd with ⟨hx, hrest⟩
    cases j with
    | zero =>
      simp at h
      rcases List.mem_cons.mp he with he' | he'
      · rw [he', h]
      · exfalso
        rw [← h] at hge
        exact hx (hge ▸ List.mem_map_of_mem g he')
    | succ j' =>
      simp at h
      rcases List.mem_cons.mp he with he' | he'
      · exfalso
        rw [he'] at hge
        have : g m ∈ rest.map g := List.mem_map_of_mem g (List.getElem?_mem h)
        rw [← hge] at this
        exact hx this
      · exact ih j' m hrest h e he' hge

/-- **C4**: if the list contains a source entry matching `oldName`
case-insensitively and a distinct target entry already bearing the
validated normalized new name, `renameCity` merges them: the result is a
permutation of the list with the target's `pinned` replaced by
`pinned(target) OR pinned(source)` and its `ts` set to `now`, and with the
source removed; the merged entry is present, no entry with the old key
remains, and the merged entry is the unique entry with the target key. -/
theorem rename_merges_into_existing_target (oldName raw : String) (test : String → Bool)
    (now : Int) (arr : List Entry) (i j : Nat)
    (hu : NamesUnique arr)
    (hi : findIdxCI (jsLower oldName) arr = some i)
    (hj : findIdxCI (jsLower (normalizeCity raw)) arr = some j)
    (hij : j ≠ i)
    (hne : normalizeCity raw ≠ "")
    (hlen : (normalizeCity raw).length ≤ 80)
    (htest : test (normalizeCity raw) = true) :
    (renameCity oldName (some raw) normalizeCity test now arr).1.Perm
        (eraseAt (modifyAt arr j (fun e =>
          { e with pinned := e.pinned || (getAt arr i).pinned, ts := now })) i) ∧
      ({ getAt arr j with pinned := (getAt arr j).pinned || (getAt arr i).pinned, ts := now } ∈
        (renameCity oldName (some raw) normalizeCity test now arr).1) ∧
      (∀ e ∈ (renameCity oldName (some raw) normalizeCity test now arr).1,
        keyOf e ≠ jsLower oldName) ∧
      (∀ e ∈ (renameCity oldName (some raw) normalizeCity test now arr).1,
        keyOf e = jsLower (normalizeCity raw) →
          e = { getAt arr j with pinned := (getAt arr j).pinned || (getAt arr i).pinned, ts := now }) := by
  obtain ⟨esrc, hesrc, hksrc⟩ := findIdxCI_some_getElem _ arr i hi
  obtain ⟨etgt, hetgt, hktgt⟩ := findIdxCI_some_getElem _ arr j hj
  set f : Entry → Entry :=
    fun e => { e with pinned := e.pinned || (getAt arr i).pinned, ts := now } with hf
  set M : List Entry := modifyAt arr j f with hM
  have hres : renameCity oldName (some raw) normalizeCity test now arr
      = (sortEntries (eraseAt M i), true) := by
    unfold renameCity
    rw [hi]
    dsimp only
    rw [if_neg hne, if_neg (by omega : ¬ 80 < (normalizeCity raw).length),
      if_neg (by simp [htest]), hj]
    dsimp only
    rw [if_neg hij]
  have hperm : (renameCity oldName (some raw) normalizeCity test now arr).1.Perm (eraseAt M i) := by
    rw [hres]
    exact perm_sortEntries _
  have hKM : M.map keyOf = arr.map keyOf :=
    map_modifyAt_pres keyOf f (fun e => rfl) arr j
  have hMj : M[j]? = some (f etgt) := modifyAt_getElem_self f arr j etgt hetgt
  have hmergedM : f etgt ∈ eraseAt M i := mem_eraseAt_of_getElem_ne M i j (f etgt) hij hMj
  have hmerged_eq : f etgt
      = { getAt arr j with pinned := (getAt arr j).pinned || (getAt arr i).pinned, ts := now } := by
    rw [getAt_eq_of_getElem arr j etgt hetgt]
  refine ⟨hperm, ?_, ?_, ?_⟩
  · rw [← hmerged_eq]
    exact hperm.mem_iff.mpr hmergedM
  · intro e he hkey
    have heE : e ∈ eraseAt M i := hperm.mem_iff.mp he
    have hKeq : (eraseAt M i).map keyOf = eraseAt (arr.map keyOf) i := by
      rw [map_eraseAt keyOf M i, hKM]
    have hKi : (arr.map keyOf)[i]? = some (jsLower oldName) := by
      rw [List.getElem?_map, hesrc]
      simp [hksrc]
    have hnot : jsLower oldName ∉ eraseAt (arr.map keyOf) i :=
      not_mem_eraseAt_self (arr.map keyOf) i _ hu hKi
    apply hnot
    rw [← hKeq, ← hkey]
    exact List.mem_map_of_mem keyOf heE
  · intro e he hkey
    have heE : e ∈ eraseAt M i := hperm.mem_iff.mp he
    have heM : e ∈ M := List.Sublist.mem heE (eraseAt_sublist M i)
    have hMnd : (M.map keyOf).Nodup := by
      rw [hKM]
      exact hu
    have hkeym : keyOf e = keyOf (f etgt) := by
      rw [hkey]
      show jsLower (normalizeCity raw) = keyOf (f etgt)
      rw [show keyOf (f etgt) = keyOf etgt from rfl, hktgt]
    rw [← hmerged_eq]
    exact eq_of_mem_key_nodup keyOf M j (f etgt) hMnd hMj e heM hkeym

theorem rename_merges_into_existing_target_witness :
    ({ name := "Tijuana", pinned := true, ts := 99 } : Entry) ∈
      (renameCity "Tokyo" (some "tijuana") normalizeCity (fun _ => true) 99
        [⟨"Tokyo", false, 5⟩, ⟨"Tijuana", true, 3⟩]).1 :=
  (rename_merges_into_existing_target "Tokyo" "tijuana" (fun _ => true) 99
    [⟨"Tokyo", false, 5⟩, ⟨"Tijuana", true, 3⟩] 0 1
    (by decide) (by decide) (by decide) (by decide) (by decide) (by decide) (by decide)).2.1

/-! ## Capacity -/

/-- The pre-truncation list built by `upsertCity` before `sort` and
`slice(0, 8)`. -/
def upsertPre (name : String) (now : Int) (arr : List Entry) : List Entry :=
  let normalized := jsTrim name
  match findIdxCI (jsLower normalized) arr with
  | some i => modifyAt arr i (fun e => { e with name := normalized, ts := now })
  | none => { name := normalized, pinned := false, ts := now } :: arr

theorem upsertCity_eq_pre (name : String) (now : Int) (arr : List Entry) :
    upsertCity name now arr = (sortEntries (upsertPre name now arr)).take 8 := rfl

theorem length_modifyAt {α : Type} (f : α → α) :
    ∀ (l : List α) (i : Nat), (modifyAt l i f).length = l.length := by
  intro l
  induction l with
  | nil => intro i; simp [modifyAt]
  | cons x rest ih =>
    intro i
    cases i with
    | zero => simp [modifyAt]
    | succ j => simp [modifyAt, ih j]

theorem upsert_length_le (name : String) (now : Int) (arr : List Entry) :
    (upsertCity name now arr).length ≤ 8 := by
  rw [upsertCity_eq_pre, List.length_take]
  omega

theorem upsert_length_ge (name : String) (now : Int) (arr : List Entry) :
    min 8 arr.length ≤ (upsertCity name now arr).length := by
  rw [upsertCity_eq_pre, List.length_take, (perm_sortEntries _).length_eq]
  unfold upsertPre
  dsimp only
  split
  · rw [length_modifyAt]
  · simp only [List.length_cons]
    omega

theorem upsertSeq_cons (p : String × Int) (rest : List (String × Int)) (arr : List Entry) :
    upsertSeq (p :: rest) arr = upsertSeq rest (upsertCity p.1 p.2 arr) := rfl

theorem upsertSeq_length_ge :
    ∀ (ops : List (String × Int)) (arr : List Entry),
      min 8 arr.length ≤ (upsertSeq ops arr).length
  | [], arr => by
    show min 8 arr.length ≤ arr.length
    exact min_le_right 8 arr.length
  | p :: rest, arr => by
    rw [upsertSeq_cons]
    have h1 := upsert_length_ge p.1 p.2 arr
    have h2 := upsertSeq_length_ge rest (upsertCity p.1 p.2 arr)
    have h3 := upsert_length_le p.1 p.2 arr
    omega

theorem upsertSeq_length_le :
    ∀ (ops : List (String × Int)) (arr : List Entry), ops ≠ [] →
      (upsertSeq ops arr).length ≤ 8
  | [], _, h => absurd rfl h
  | p :: rest, arr, _ => by
    rw [upsertSeq_cons]
    rcases eq_or_ne rest [] with hr | hr
    · subst hr
      exact upsert_length_le _ _ _
    · exact upsertSeq_length_le rest _ hr

theorem upsert_keys_mem (name : String) (now : Int) (arr : List Entry)
    (h : (upsertCity name now arr).length < 8) :
    ∀ k, (k = upsertKey name ∨ k ∈ arr.map keyOf) →
      k ∈ (upsertCity name now arr).map keyOf := by
  intro k hk
  rw [upsertCity_eq_pre] at h ⊢
  have hslen : (sortEntries (upsertPre name now arr)).length < 8 := by
    rw [List.length_take] at h
    omega
  rw [List.take_of_length_le (by omega)] at h ⊢
  have hperm := (perm_sortEntries (upsertPre name now arr)).map keyOf
  rw [hperm.mem_iff]
  unfold upsertPre
  dsimp only
  cases hfi : findIdxCI (jsLower (jsTrim name)) arr with
  | some i =>
    obtain ⟨e, he, hke⟩ := findIdxCI_some_getElem _ arr i hfi
    have hKi : (arr.map keyOf)[i]? = some (upsertKey name) := by
      rw [List.getElem?_map, he]
      simp [hke]
      rfl
    rw [map_modifyAt_const keyOf
      (fun e => { e with name := jsTrim name, ts := now })
      (jsLower (jsTrim name)) (fun e' => rfl) arr i]
    rw [show jsLower (jsTrim name) = upsertKey name from rfl, set_getElem_self _ i _ hKi]
    rcases hk with hk | hk
    · rw [hk]
      exact List.getElem?_mem hKi
    · exact hk
  | none =>
    simp only [List.map_cons]
    rcases hk with hk | hk
    · rw [hk]
      exact List.mem_cons_self _ _
    · exact List.mem_cons_of_mem _ hk

theorem upsertSeq_keys_preserved :
    ∀ (ops : List (String × Int)) (arr : List Entry),
      (upsertSeq ops arr).length < 8 →
      ∀ k ∈ arr.map keyOf, k ∈ (upsertSeq ops arr).map keyOf
  | [], _, _ => fun _ hk => hk
  | q :: rest, arr, h => by
    intro k hk
    rw [upsertSeq_cons] at h ⊢
    have harr1 : (upsertCity q.1 q.2 arr).length < 8 := by
      have := upsertSeq_length_ge rest (upsertCity q.1 q.2 arr)
      omega
    exact upsertSeq_keys_preserved rest _ h k
      (upsert_keys_mem q.1 q.2 arr harr1 k (Or.inr hk))

theorem upsertSeq_keys_mem :
    ∀ (ops : List (String × Int)) (arr : List Entry),
      (upsertSeq ops arr).length < 8 →
      ∀ p ∈ ops, upsertKey p.1 ∈ (upsertSeq ops arr).map keyOf
  | [], _, _ => by intro p hp; simp at hp
  | q :: rest, arr, h => by
    intro p hp
    rw [upsertSeq_cons] at h ⊢
    have harr1 : (upsertCity q.1 q.2 arr).length < 8 := by
      have := upsertSeq_length_ge rest (upsertCity q.1 q.2 arr)
      omega
    rcases List.mem_cons.mp hp with hpq | hprest
    · rw [hpq]
      exact upsertSeq_keys_preserved rest _ h _
        (upsert_keys_mem q.1 q.2 arr harr1 _ (Or.inl rfl))
    · exact upsertSeq_keys_mem rest _ h p hprest

theorem nodup_length_le_of_mem {α : Type} [DecidableEq α] (L L' : List α)
    (hnd : L.Nodup) (hsub : ∀ k ∈ L, k ∈ L') : L.length ≤ L'.length := by
  have h1 : L.toFinset.card = L.length := List.toFinset_card_of_nodup hnd
  have h2 : L.toFinset ⊆ L'.toFinset := by
    rw [Finset.subset_iff]
    intro x hx
    rw [List.mem_toFinset] at hx ⊢
    exact hsub x hx
  calc L.length = L.toFinset.card := h1.symm
    _ ≤ L'.toFinset.card := Finset.card_le_card h2
    _ ≤ L'.length := List.toFinset_card_le L'

/-- The capacity claim as literally stated (">8 distinct *normalized* names
⟹ length exactly 8") fails: normalization preserves letter case, so these
nine pairwise-distinct normalized names collapse to only three
case-insensitive keys, and upserting all nine into an empty store leaves a
list of length 3, not 8. -/
theorem capacity_claim_counterexample :
    ((([("aa", (1 : Int)), ("aA", 2), ("Aa", 3), ("AA", 4), ("ab", 5), ("aB", 6),
          ("Ab", 7), ("AB", 8), ("ba", 9)] : List (String × Int)).map
        fun p => normalizeCity p.1).dedup.length = 9) ∧
      (upsertSeq [("aa", 1), ("aA", 2), ("Aa", 3), ("AA", 4), ("ab", 5), ("aB", 6),
        ("Ab", 7), ("AB", 8), ("ba", 9)] []).length = 3 := by
  constructor
  · decide
  · decide

/-- **C3** (amended): after any sequence of `upsertCity` calls whose names
span more than 8 distinct case-insensitive keys (trimmed and lowercased
names), the stored list has length exactly 8; every `upsertCity` result has
length at most 8; and each `upsertCity` call keeps a prefix of the sorted
pre-truncation list, so every retained entry ranks at least as high as
every dropped entry under (pinned desc, lastTouched desc). -/
theorem upsert_capacity_exactly_eight (ops : List (String × Int)) (arr : List Entry)
    (h : 8 < ((ops.map fun p => upsertKey p.1).dedup).length) :
    (upsertSeq ops arr).length = 8 ∧
      (∀ (name : String) (now : Int) (a : List Entry), (upsertCity name now a).length ≤ 8) ∧
      (∀ (name : String) (now : Int) (a : List Entry),
        (upsertCity name now a ++ (sortEntries (upsertPre name now a)).drop 8).Perm
          (upsertPre name now a)) ∧
      ∀ (name : String) (now : Int) (a : List Entry),
        ∀ e ∈ upsertCity name now a, ∀ d ∈ (sortEntries (upsertPre name now a)).drop 8,
          entryRel e d := by
  refine ⟨?_, fun n t a => upsert_length_le n t a, ?_, ?_⟩
  · have hne : ops ≠ [] := by
      intro he
      rw [he] at h
      simp at h
    have hle := upsertSeq_length_le ops arr hne
    by_contra hlt'
    have hlt : (upsertSeq ops arr).length < 8 := by omega
    have hsub : ∀ k ∈ (ops.map fun p => upsertKey p.1).dedup,
        k ∈ (upsertSeq ops arr).map keyOf := by
      intro k hk
      rw [List.mem_dedup] at hk
      obtain ⟨p, hp, hpk⟩ := List.mem_map.mp hk
      rw [← hpk]
      exact upsertSeq_keys_mem ops arr hlt p hp
    have hcard := nodup_length_le_of_mem _ _ (List.nodup_dedup _) hsub
    rw [List.length_map] at hcard
    omega
  · intro n t a
    rw [upsertCity_eq_pre, List.take_append_drop]
    exact perm_sortEntries _
  · intro n t a e he d hd
    have hpw : List.Pairwise entryRel
        ((sortEntries (upsertPre n t a)).take 8 ++ (sortEntries (upsertPre n t a)).drop 8) := by
      rw [List.take_append_drop]
      exact sorted_sortEntries _
    exact (List.pairwise_append.mp hpw).2.2 e
      (by rw [upsertCity_eq_pre] at he; exact he) d hd

theorem upsert_capacity_exactly_eight_witness :
    (8 < ((([("c1", (1 : Int)), ("c2", 2), ("c3", 3), ("c4", 4), ("c5", 5), ("c6", 6),
          ("c7", 7), ("c8", 8), ("c9", 9)] : List (String × Int)).map
        fun p => upsertKey p.1).dedup).length) ∧
      (upsertSeq [("c1", 1), ("c2", 2), ("c3", 3), ("c4", 4), ("c5", 5), ("c6", 6),
        ("c7", 7), ("c8", 8), ("c9", 9)] []).length = 8 :=
  ⟨by decide, (upsert_capacity_exactly_eight _ [] (by decide)).1⟩

/-! ## Whitespace lemmas for the normalizer -/

theorem head_dropWhile_not_ws :
    ∀ (l : List Char) (c : Char), (l.dropWhile isWS).head? = some c → isWS c = false := by
  intro l
  induction l with
  | nil => intro c h; simp at h
  | cons x rest ih =>
    intro c h
    cases hx : isWS x with
    | true =>
      rw [List.dropWhile_cons, if_pos hx] at h
      exact ih c h
    | false =>
      rw [List.dropWhile_cons, if_neg (by simp [hx])] at h
      simp at h
      rw [← h]
      exact hx

theorem getLast_eq_of_suffix {α : Type} (l s : List α) (h : s <:+ l) (hne : s ≠ []) :
    l.getLast? = s.getLast? := by
  obtain ⟨t, ht⟩ := h
  rw [← ht, List.getLast?_append]
  cases hs : s.getLast? with
  | none => exact absurd (List.getLast?_eq_none_iff.mp hs) hne
  | some y => simp

theorem head_trimChars_not_ws (l : List Char) :
    ∀ c, (trimChars l).head? = some c → isWS c = false := by
  intro c h
  unfold trimChars at h
  rw [List.head?_reverse] at h
  have hne : (l.dropWhile isWS).reverse.dropWhile isWS ≠ [] := by
    intro he
    rw [he] at h
    simp at h
  rw [← getLast_eq_of_suffix (l.dropWhile isWS).reverse _ (List.dropWhile_suffix isWS) hne,
    List.getLast?_reverse] at h
  exact head_dropWhile_not_ws l c h

theorem last_trimChars_not_ws (l : List Char) :
    ∀ c, (trimChars l).getLast? = some c → isWS c = false := by
  intro c h
  unfold trimChars at h
  rw [List.getLast?_reverse] at h
  exact head_dropWhile_not_ws _ c h

theorem dropWhile_eq_self_of_head {α : Type} (p : α → Bool) (l : List α)
    (h : ∀ c, l.head? = some c → p c = false) : l.dropWhile p = l := by
  cases l with
  | nil => rfl
  | cons x rest =>
    rw [List.dropWhile_cons, if_neg (by simp [h x rfl])]

theorem trimChars_eq_self (l : List Char)
    (h1 : ∀ c, l.head? = some c → isWS c = false)
    (h2 : ∀ c, l.getLast? = some c → isWS c = false) : trimChars l = l := by
  unfold trimChars
  rw [dropWhile_eq_self_of_head isWS l h1,
    dropWhile_eq_self_of_head isWS l.reverse
      (by intro c hc; rw [List.head?_reverse] at hc; exact h2 c hc),
    List.reverse_reverse]

theorem trimChars_idem (l : List Char) : trimChars (trimChars l) = trimChars l :=
  trimChars_eq_self _ (head_trimChars_not_ws l) (last_trimChars_not_ws l)

theorem collapseGo_cons_ws (b : Bool) (x : Char) (rest : List Char) (hx : isWS x = true) :
    collapseGo b (x :: rest) =
      if b then collapseGo true rest else ' ' :: collapseGo true rest := by
  conv_lhs => rw [collapseGo]
  rw [if_pos hx]

theorem collapseGo_cons_not_ws (b : Bool) (x : Char) (rest : List Char) (hx : isWS x = false) :
    collapseGo b (x :: rest) = x :: collapseGo false rest := by
  conv_lhs => rw [collapseGo]
  rw [if_neg (by simp [hx])]

theorem mem_collapseGo_ws :
    ∀ (l : List Char) (b : Bool) (c : Char), c ∈ collapseGo b l → isWS c = true → c = ' ' := by
  intro l
  induction l with
  | nil => intro b c h; simp [collapseGo] at h
  | cons x rest ih =>
    intro b c h hc
    cases hx : isWS x with
    | true =>
      rw [collapseGo_cons_ws b x rest hx] at h
      cases b with
      | true =>
        rw [if_pos rfl] at h
        exact ih true c h hc
      | false =>
        rw [if_neg (by simp)] at h
        rcases List.mem_cons.mp h with he | h'
        · exact he
        · exact ih true c h' hc
    | false =>
      rw [collapseGo_cons_not_ws b x rest hx] at h
      rcases List.mem_cons.mp h with he | h'
      · rw [he] at hc
        exact absurd hc (by simp [hx])
      · exact ih false c h' hc

theorem head_collapseGo_true :
    ∀ (l : List Char) (c : Char), (collapseGo true l).head? = some c → isWS c = false := by
  intro l
  induction l with
  | nil => intro c h; simp [collapseGo] at h
  | cons x rest ih =>
    intro c h
    cases hx : isWS x with
    | true =>
      rw [collapseGo_cons_ws true x rest hx, if_pos rfl] at h
      exact ih c h
    | false =>
      rw [collapseGo_cons_not_ws true x rest hx] at h
      simp at h
      rw [← h]
      exact hx

theorem chain_collapseGo :
    ∀ (l : List Char) (b : Bool),
      List.Chain' (fun a c => isWS a = false ∨ isWS c = false) (collapseGo b l) := by
  intro l
  induction l with
  | nil => intro b; simp [collapseGo]
  | cons x rest ih =>
    intro b
    cases hx : isWS x with
    | true =>
      rw [collapseGo_cons_ws b x rest hx]
      cases b with
      | true =>
        rw [if_pos rfl]
        exact ih true
      | false =>
        rw [if_neg (by simp)]
        rw [List.chain'_cons']
        refine ⟨?_, ih true⟩
        intro y hy
        exact Or.inr (head_collapseGo_true rest y (Option.mem_def.mp hy))
    | false =>
      rw [collapseGo_cons_not_ws b x rest hx, List.chain'_cons']
      exact ⟨fun y _ => Or.inl hx, ih false⟩

theorem collapseGo_eq_self :
    ∀ (l : List Char) (b : Bool),
      (∀ c ∈ l, isWS c = true → c = ' ') →
      List.Chain' (fun a c => isWS a = false ∨ isWS c = false) l →
      (b = true → ∀ c, l.head? = some c → isWS c = false) →
      collapseGo b l = l := by
  intro l
  induction l with
  | nil => intro b _ _ _; rfl
  | cons x rest ih =>
    intro b hall hchain hhead
    cases hx : isWS x with
    | true =>
      cases b with
      | true => exact absurd (hhead rfl x rfl) (by simp [hx])
      | false =>
        rw [collapseGo_cons_ws false x rest hx, if_neg (by simp)]
        have hx' : x = ' ' := hall x (List.mem_cons_self x rest) hx
        rw [ih true (fun c hc => hall c (List.mem_cons_of_mem x hc)) hchain.tail ?_, hx']
        intro _ c hc
        rcases (List.chain'_cons'.mp hchain).1 c (Option.mem_def.mpr hc) with h1 | h2
        · rw [hx] at h1
          exact absurd h1 (by simp)
        · exact h2
    | false =>
      rw [collapseGo_cons_not_ws b x rest hx,
        ih false (fun c hc => hall c (List.mem_cons_of_mem x hc)) hchain.tail
          (by intro hb; exact absurd hb (by simp))]

theorem getLast_cons_ne_nil {α : Type} (x : α) (rest : List α) (h : rest ≠ []) :
    (x :: rest).getLast? = rest.getLast? := by
  cases rest with
  | nil => exact absurd rfl h
  | cons y t => exact List.getLast?_cons_cons

theorem getLast_collapseGo :
    ∀ (l : List Char) (b : Bool) (c : Char),
      l.getLast? = some c → isWS c = false → (collapseGo b l).getLast? = some c := by
  intro l
  induction l with
  | nil => intro b c h _; simp at h
  | cons x rest ih =>
    intro b c h hc
    cases hrest : rest with
    | nil =>
      subst hrest
      simp at h
      subst h
      rw [collapseGo_cons_not_ws b x [] hc]
      simp [collapseGo]
    | cons y t =>
      subst hrest
      have hlast : (y :: t).getLast? = some c := by
        rw [← List.getLast?_cons_cons]
        exact h
      cases hx : isWS x with
      | true =>
        rw [collapseGo_cons_ws b x (y :: t) hx]
        cases b with
        | true =>
          rw [if_pos rfl]
          exact ih true c hlast hc
        | false =>
          rw [if_neg (by simp)]
          have h2 := ih true c hlast hc
          rw [getLast_cons_ne_nil ' ' _ (by intro he; rw [he] at h2; simp at h2)]
          exact h2
      | false =>
        rw [collapseGo_cons_not_ws b x (y :: t) hx]
        have h2 := ih false c hlast hc
        rw [getLast_cons_ne_nil x _ (by intro he; rw [he] at h2; simp at h2)]
        exact h2

theorem head_collapseGo_false (l : List Char)
    (h : ∀ c, l.head? = some c → isWS c = false) :
    ∀ c, (collapseGo false l).head? = some c → isWS c = false := by
  intro c hc
  cases l with
  | nil => simp [collapseGo] at hc
  | cons x rest =>
    have hx : isWS x = false := h x rfl
    rw [collapseGo_cons_not_ws false x rest hx] at hc
    simp at hc
    rw [← hc]
    exact hx

/-- The shape of a string after trimming and whitespace collapsing: all
whitespace is a single `' '`, never doubled, and never at either end. -/
structure CleanWS (l : List Char) : Prop where
  allSp : ∀ c ∈ l, isWS c = true → c = ' '
  chain : List.Chain' (fun a b => isWS a = false ∨ isWS b = false) l
  headNW : ∀ c, l.head? = some c → isWS c = false
  lastNW : ∀ c, l.getLast? = some c → isWS c = false

theorem cleanWS_stage (l : List Char) : CleanWS (collapseWS (trimChars l)) := by
  constructor
  · exact fun c hc => mem_collapseGo_ws (trimChars l) false c hc
  · exact chain_collapseGo (trimChars l) false
  · exact head_collapseGo_false (trimChars l) (head_trimChars_not_ws l)
  · intro c hc
    cases hlast : (trimChars l).getLast? with
    | none =>
      have hnil : trimChars l = [] := List.getLast?_eq_none_iff.mp hlast
      rw [show collapseWS (trimChars l) = collapseGo false (trimChars l) from rfl, hnil] at hc
      simp [collapseGo] at hc
    | some d =>
      have hd : isWS d = false := last_trimChars_not_ws l d hlast
      have hpres := getLast_collapseGo (trimChars l) false d hlast hd
      rw [show collapseWS (trimChars l) = collapseGo false (trimChars l) from rfl, hpres] at hc
      injection hc with hdc
      rw [← hdc]
      exact hd

theorem stage_eq_self_of_clean (m : List Char) (h : CleanWS m) :
    collapseWS (trimChars m) = m := by
  rw [trimChars_eq_self m h.headNW h.lastNW]
  exact collapseGo_eq_self m false h.allSp h.chain (fun hb => absurd hb (by simp))

/-! ## Letter facts and country-code replacement lemmas -/

theorem letter_spec :
    ∀ c ∈ asciiLetters, isWS c = false ∧ isAsciiLetter (Char.toUpper c) = true ∧
      Char.toUpper (Char.toUpper c) = Char.toUpper c ∧ isWS (Char.toUpper c) = false := by
  decide

theorem mem_of_isAsciiLetter (c : Char) (h : isAsciiLetter c = true) : c ∈ asciiLetters :=
  of_decide_eq_true h

theorem letter_not_ws (c : Char) (h : isAsciiLetter c = true) : isWS c = false :=
  (letter_spec c (mem_of_isAsciiLetter c h)).1

theorem letter_toUpper (c : Char) (h : isAsciiLetter c = true) :
    isAsciiLetter (Char.toUpper c) = true :=
  (letter_spec c (mem_of_isAsciiLetter c h)).2.1

theorem toUpper_idem (c : Char) (h : isAsciiLetter c = true) :
    Char.toUpper (Char.toUpper c) = Char.toUpper c :=
  (letter_spec c (mem_of_isAsciiLetter c h)).2.2.1

theorem toUpper_not_ws (c : Char) (h : isAsciiLetter c = true) :
    isWS (Char.toUpper c) = false :=
  (letter_spec c (mem_of_isAsciiLetter c h)).2.2.2

theorem dropWhile_ws_append (a b : List Char) (ha : ∀ c ∈ a, isWS c = true)
    (hb : ∀ c, b.head? = some c → isWS c = false) :
    (a ++ b).dropWhile isWS = b := by
  induction a with
  | nil =>
    rw [List.nil_append]
    exact dropWhile_eq_self_of_head isWS b hb
  | cons x t ih =>
    rw [List.cons_append, List.dropWhile_cons, if_pos (ha x (List.mem_cons_self x t))]
    exact ih (fun c hc => ha c (List.mem_cons_of_mem x hc))

theorem ccReplace_concat_cc (pre ws : List Char) (x y : Char)
    (hws : ∀ c ∈ ws, isWS c = true) (hx : isAsciiLetter x = true)
    (hy : isAsciiLetter y = true) :
    ccReplace (pre ++ ',' :: ws ++ [x, y]) =
      pre ++ [',', ' ', Char.toUpper x, Char.toUpper y] := by
  have hrev : (pre ++ ',' :: ws ++ [x, y]).reverse
      = y :: x :: (ws.reverse ++ ',' :: pre.reverse) := by
    simp
  have hdrop : (ws.reverse ++ ',' :: pre.reverse).dropWhile isWS = ',' :: pre.reverse :=
    dropWhile_ws_append _ _ (fun c hc => hws c (List.mem_reverse.mp hc))
      (by intro c hc; simp at hc; rw [← hc]; decide)
  conv_lhs => rw [ccReplace, hrev]
  dsimp only
  rw [if_pos (by rw [hx, hy]; rfl), hdrop]
  simp

theorem ccReplace_shape (m : List Char) :
    ccReplace m = m ∨
      ∃ pre ws x y, m = pre ++ ',' :: ws ++ [x, y] ∧ (∀ c ∈ ws, isWS c = true) ∧
        isAsciiLetter x = true ∧ isAsciiLetter y = true ∧
        ccReplace m = pre ++ [',', ' ', Char.toUpper x, Char.toUpper y] := by
  unfold ccReplace
  split
  next y x rest heq =>
    split
    next hxy =>
      rcases Bool.and_eq_true _ _ ▸ hxy with ⟨hy, hx⟩
      split
      next preRev heq2 =>
        right
        refine ⟨preRev.reverse, (rest.takeWhile isWS).reverse, x, y, ?_, ?_, hx, hy, ?_⟩
        · have hm : m = rest.reverse ++ [x, y] := by
            have h2 := congrArg List.reverse heq
            simpa using h2
          have hrest : rest = rest.takeWhile isWS ++ ',' :: preRev := by
            conv_lhs => rw [← List.takeWhile_append_dropWhile isWS rest]
            rw [heq2]
          rw [hm]
          conv_lhs => rw [hrest]
          simp
        · intro c hc
          exact List.mem_takeWhile_imp (List.mem_reverse.mp hc)
        · rfl
      next heq2 =>
        left
        rfl
    next hxy =>
      left
      rfl
  next h1 =>
    left
    rfl

theorem cleanWS_ccReplace (m : List Char) (h : CleanWS m) : CleanWS (ccReplace m) := by
  rcases ccReplace_shape m with heq | ⟨pre, ws, x, y, hm, hws, hx, hy, heq⟩
  · rw [heq]
    exact h
  · rw [heq]
    constructor
    · intro c hc hwsc
      rcases List.mem_append.mp hc with hcp | hct
      · exact h.allSp c
          (by rw [hm]; exact List.mem_append_left _ (List.mem_append_left _ hcp)) hwsc
      · simp at hct
        rcases hct with h1 | h1 | h1 | h1 <;> subst h1
        · exact absurd hwsc (by decide)
        · rfl
        · exact absurd hwsc (by simp [toUpper_not_ws x hx])
        · exact absurd hwsc (by simp [toUpper_not_ws y hy])
    · have hm' : m = (pre ++ [',']) ++ (ws ++ [x, y]) := by
        rw [hm]
        simp
      have hchainm := h.chain
      rw [hm'] at hchainm
      have hc1 : List.Chain' (fun a b => isWS a = false ∨ isWS b = false) (pre ++ [',']) :=
        (List.chain'_append.mp hchainm).1
      have hshape : pre ++ [',', ' ', Char.toUpper x, Char.toUpper y]
          = (pre ++ [',']) ++ [' ', Char.toUpper x, Char.toUpper y] := by
        simp
      rw [hshape, List.chain'_append]
      refine ⟨hc1, ?_, ?_⟩
      · rw [List.chain'_cons]
        refine ⟨Or.inr (toUpper_not_ws x hx), ?_⟩
        rw [List.chain'_pair]
        exact Or.inl (toUpper_not_ws x hx)
      · intro a ha b hb
        rw [List.getLast?_concat] at ha
        simp at ha
        subst ha
        exact Or.inl (by decide)
    · intro c hc
      cases hpre : pre with
      | nil =>
        subst hpre
        simp at hc
        subst hc
        decide
      | cons z t =>
        subst hpre
        simp at hc
        subst hc
        exact h.headNW z (by rw [hm]; rfl)
    · intro c hc
      have hshape : pre ++ [',', ' ', Char.toUpper x, Char.toUpper y]
          = (pre ++ [',', ' ', Char.toUpper x]) ++ [Char.toUpper y] := by
        simp
      rw [hshape, List.getLast?_concat] at hc
      injection hc with hc
      rw [← hc]
      exact toUpper_not_ws y hy

theorem ccReplace_idem_apply (m : List Char) : ccReplace (ccReplace m) = ccReplace m := by
  rcases ccReplace_shape m with heq | ⟨pre, ws, x, y, hm, hws, hx, hy, heq⟩
  · rw [heq]
    exact heq
  · rw [heq]
    have hshape : pre ++ [',', ' ', Char.toUpper x, Char.toUpper y]
        = pre ++ ',' :: [' '] ++ [Char.toUpper x, Char.toUpper y] := by simp
    rw [hshape, ccReplace_concat_cc pre [' '] (Char.toUpper x) (Char.toUpper y)
      (by intro c hc; simp at hc; rw [hc]; decide)
      (letter_toUpper x hx) (letter_toUpper y hy)]
    rw [toUpper_idem x hx, toUpper_idem y hy]
    exact hshape

theorem normalizeChars_idem (l : List Char) :
    normalizeChars (normalizeChars l) = normalizeChars l := by
  have hclean : CleanWS (collapseWS (trimChars l)) := cleanWS_stage l
  show ccReplace (collapseWS (trimChars (ccReplace (collapseWS (trimChars l)))))
      = ccReplace (collapseWS (trimChars l))
  rw [stage_eq_self_of_clean _ (cleanWS_ccReplace _ hclean)]
  exact ccReplace_idem_apply _

/-- **C7**: `normalizeCity` is idempotent: normalizing an already-normalized
string returns it unchanged. (As a pure function of its argument, the
embedded `normalizeCity` is deterministic and has no side effects by
construction.) -/
theorem normalizeCity_idempotent (s : String) :
    normalizeCity (normalizeCity s) = normalizeCity s := by
  show String.mk (normalizeChars (String.mk (normalizeChars s.data)).data)
      = String.mk (normalizeChars s.data)
  rw [show (String.mk (normalizeChars s.data)).data = normalizeChars s.data from rfl,
    normalizeChars_idem]

/-! ## What upsert stores: trimmed input, not normalized input -/

theorem jsTrim_idem (s : String) : jsTrim (jsTrim s) = jsTrim s := by
  show String.mk (trimChars (String.mk (trimChars s.data)).data) = String.mk (trimChars s.data)
  rw [show (String.mk (trimChars s.data)).data = trimChars s.data from rfl, trimChars_idem]

theorem mem_modifyAt {α : Type} (f : α → α) :
    ∀ (l : List α) (i : Nat) (e : α), e ∈ modifyAt l i f → e ∈ l ∨ ∃ a, a ∈ l ∧ e = f a := by
  intro l
  induction l with
  | nil => intro i e h; simp [modifyAt] at h
  | cons x rest ih =>
    intro i e h
    cases i with
    | zero =>
      rcases List.mem_cons.mp h with he | h'
      · exact Or.inr ⟨x, List.mem_cons_self x rest, he⟩
      · exact Or.inl (List.mem_cons_of_mem x h')
    | succ j =>
      rcases List.mem_cons.mp h with he | h'
      · exact Or.inl (by rw [he]; exact List.mem_cons_self x rest)
      · rcases ih j e h' with h1 | ⟨a, ha, hfa⟩
        · exact Or.inl (List.mem_cons_of_mem x h1)
        · exact Or.inr ⟨a, List.mem_cons_of_mem x ha, hfa⟩

/-- The claim that `upsertCity` stores the full normalizer's output is
false on the code: `upsertCity` only trims. With raw input `"a  b"`
(internal double space) the stored name is the merely-trimmed `"a  b"`,
while `normalizeCity` collapses the run to `"a b"`. -/
theorem upsert_normalizes_counterexample :
    (upsertCity "a  b" 0 []).map Entry.name = ["a  b"] ∧
      normalizeCity "a  b" = "a b" ∧
      (upsertCity "a  b" 0 []).map Entry.name ≠ [normalizeCity "a  b"] :=
  ⟨by decide, by decide, by decide⟩

/-- **C6** (amended): `upsertCity` applies only `name.trim()` — not the full
normalizer — before the case-insensitive lookup and before storing: it is
invariant under pre-trimming its argument, and every entry of its result
either comes from the old list unchanged or carries exactly the trimmed
input as its stored name. (Whitespace collapsing and country-code
uppercasing happen in the caller, which normalizes the form field before
submitting.) -/
theorem upsert_stores_trimmed_name (name : String) (now : Int) (arr : List Entry) :
    upsertCity name now arr = upsertCity (jsTrim name) now arr ∧
      ∀ e ∈ upsertCity name now arr, e ∈ arr ∨ e.name = jsTrim name := by
  constructor
  · unfold upsertCity
    rw [jsTrim_idem]
  · intro e he
    rw [upsertCity_eq_pre] at he
    have heS : e ∈ sortEntries (upsertPre name now arr) := List.mem_of_mem_take he
    have heP : e ∈ upsertPre name now arr := (perm_sortEntries _).mem_iff.mp heS
    unfold upsertPre at heP
    dsimp only at heP
    revert heP
    cases hfi : findIdxCI (jsLower (jsTrim name)) arr with
    | some i =>
      intro heP
      rcases mem_modifyAt _ arr i e heP with h1 | ⟨a, _, hfa⟩
      · exact Or.inl h1
      · right
        rw [hfa]
    | none =>
      intro heP
      rcases List.mem_cons.mp heP with he' | h1
      · right
        rw [he']
      · exact Or.inl h1

/-! ## Decoding the persisted blob -/

theorem legacyUpgrade_names (now : Int) :
    ∀ (vs : List JVal) (i : Nat), (legacyUpgrade now vs i).map Entry.name = vs.map strOf := by
  intro vs
  induction vs with
  | nil => intro i; rfl
  | cons v rest ih =>
    intro i
    simp only [legacyUpgrade, List.map_cons, ih (i + 1)]

theorem legacyUpgrade_pinned (now : Int) :
    ∀ (vs : List JVal) (i : Nat), ∀ e ∈ legacyUpgrade now vs i, e.pinned = false := by
  intro vs
  induction vs with
  | nil => intro i e h; simp [legacyUpgrade] at h
  | cons v rest ih =>
    intro i e h
    rcases List.mem_cons.mp h with he | h'
    · rw [he]
    · exact ih (i + 1) e h'

theorem legacyUpgrade_ts (now : Int) :
    ∀ (vs : List JVal) (i k : Nat) (e : Entry),
      (legacyUpgrade now vs i)[k]? = some e → e.ts = now - (i + k) := by
  intro vs
  induction vs with
  | nil => intro i k e h; simp [legacyUpgrade] at h
  | cons v rest ih =>
    intro i k e h
    cases k with
    | zero =>
      simp [legacyUpgrade] at h
      rw [← h]
      simp
    | succ j =>
      simp only [legacyUpgrade, List.getElem?_cons_succ] at h
      rw [ih (i + 1) j e h]
      push_cast
      ring

theorem legacyUpgrade_ts_desc (now : Int) :
    ∀ (vs : List JVal) (i : Nat),
      List.Chain' (fun a b => b.ts < a.ts) (legacyUpgrade now vs i) := by
  intro vs
  induction vs with
  | nil => intro i; simp [legacyUpgrade]
  | cons v rest ih =>
    intro i
    rw [show legacyUpgrade now (v :: rest) i
      = { name := strOf v, pinned := false, ts := now - i } :: legacyUpgrade now rest (i + 1)
      from rfl]
    rw [List.chain'_cons']
    refine ⟨?_, ih (i + 1)⟩
    intro y hy
    rw [Option.mem_def, List.head?_eq_getElem?] at hy
    have hts := legacyUpgrade_ts now rest (i + 1) 0 y hy
    rw [hts]
    push_cast
    omega

/-- **C9**: for a persisted legacy value that is a non-empty array of
strings, `getHistory` upgrades the names in order to records with
`pinned = false` and synthesized strictly descending timestamps
(`ts = now - i` for the `i`-th entry); it performs no storage write; and
for unparsable JSON or a non-array value it returns the empty list. -/
theorem getHistory_decodes_legacy_and_malformed (names : List String) (now : Int)
    (st : Storage) (h : names ≠ []) :
    ((getHistory (.ok (.jarr (names.map JVal.jstr))) now).map Entry.name = names ∧
      (∀ e ∈ getHistory (.ok (.jarr (names.map JVal.jstr))) now, e.pinned = false) ∧
      (∀ (k : Nat) (e : Entry),
        (getHistory (.ok (.jarr (names.map JVal.jstr))) now)[k]? = some e →
          e.ts = now - k) ∧
      List.Chain' (fun a b => b.ts < a.ts)
        (getHistory (.ok (.jarr (names.map JVal.jstr))) now)) ∧
      getHistory (.error ()) now = [] ∧
      (∀ v : JVal, isArr v = false → getHistory (.ok v) now = []) ∧
      (getHistoryS st now).1 = st := by
  have hleg : getHistory (.ok (.jarr (names.map JVal.jstr))) now
      = legacyUpgrade now (names.map JVal.jstr) 0 := by
    cases names with
    | nil => exact absurd rfl h
    | cons n ns => rfl
  refine ⟨⟨?_, ?_, ?_, ?_⟩, rfl, ?_, rfl⟩
  · rw [hleg, legacyUpgrade_names, List.map_map]
    have : strOf ∘ JVal.jstr = id := by
      funext s
      rfl
    rw [this, List.map_id]
  · rw [hleg]
    exact legacyUpgrade_pinned now _ 0
  · rw [hleg]
    intro k e hk
    have := legacyUpgrade_ts now (names.map JVal.jstr) 0 k e hk
    rw [this]
    simp
  · rw [hleg]
    exact legacyUpgrade_ts_desc now _ 0
  · intro v hv
    cases v with
    | jarr xs => simp [isArr] at hv
    | jnull => rfl
    | jbool b => rfl
    | jnum n => rfl
    | jstr s => rfl
    | jobj fields => rfl

theorem getHistory_decodes_legacy_and_malformed_witness :
    (getHistory (.ok (.jarr (["Lima", "Oslo"].map JVal.jstr))) 100).map Entry.name
      = ["Lima", "Oslo"] :=
  (getHistory_decodes_legacy_and_malformed ["Lima", "Oslo"] 100 ⟨.ok .jnull⟩ (by decide)).1.1
